import Mathlib

/-!
Shallow embedding of the concurrent Redis benchmark engine
(`main.go` and its latency-tracking variant).

Floats are modelled as exact rationals; where IEEE special values
matter (the ratio normalization divides by the raw ratio sum, which Go
performs on `float64` and which yields NaN/Inf when the sum is zero),
we use an explicit `GoFloat` type with `nan`/`inf`/`ninf` constructors
and Go's comparison semantics (every comparison with NaN is false).
Machine integers are modelled as `Nat` (all counters only increase).
-/

/-- The three operation kinds issued by a worker (`SET`, `GET`, `DEL`). -/
inductive Op where
  | set
  | get
  | del
deriving DecidableEq, Repr

/-- A Go `float64` value: either a finite value (modelled exactly as a
rational), NaN, or a signed infinity. -/
inductive GoFloat where
  | nan
  | inf
  | ninf
  | fin (q : ℚ)
deriving DecidableEq, Repr

/-- Go `float64` addition on the modelled values (NaN propagates;
`+Inf + -Inf = NaN`). -/
def GoFloat.add : GoFloat → GoFloat → GoFloat
  | .nan, _ => .nan
  | _, .nan => .nan
  | .inf, .ninf => .nan
  | .ninf, .inf => .nan
  | .inf, _ => .inf
  | _, .inf => .inf
  | .ninf, _ => .ninf
  | _, .ninf => .ninf
  | .fin a, .fin b => .fin (a + b)

/-- Go `<` on the modelled `float64` values: any comparison involving
NaN is false; infinities compare as expected; finite values compare as
rationals. -/
def GoFloat.lt : GoFloat → GoFloat → Bool
  | .nan, _ => false
  | _, .nan => false
  | .fin a, .fin b => decide (a < b)
  | .ninf, .ninf => false
  | .ninf, _ => true
  | _, .ninf => false
  | .inf, _ => false
  | .fin _, .inf => true

/-- Go `float64` division of two finite values: division by zero yields
NaN for `0/0` and a signed infinity otherwise, exactly as IEEE-754
(and hence Go) prescribes. -/
def divGo (a b : ℚ) : GoFloat :=
  if b = 0 then
    if a = 0 then .nan else if 0 < a then .inf else .ninf
  else .fin (a / b)

/-- The ratio normalization performed at the top of `main`:
`totalRatio := setRatio + getRatio + delRatio` followed by dividing each
raw ratio by `totalRatio`.  No zero-sum check is performed by the code. -/
def normalizeRatios (s g d : ℚ) : GoFloat × GoFloat × GoFloat :=
  let t := s + g + d
  (divGo s t, divGo g t, divGo d t)

/-- The operation selector inlined in `clientWorker`:
`if op < setRatio` then SET, `else if op < setRatio+getRatio` then GET,
else DEL. -/
def selectOp (op w r : GoFloat) : Op :=
  if op.lt w then .set
  else if op.lt (w.add r) then .get
  else .del

/-- Per-kind latency statistics (`operationStats` in the latency
variant), without the mutex: `minTime`, `maxTime`, `totalTime` are
`float64` (here exact rationals, always finite in this model), `count`
is an `int`. -/
structure OperationStats where
  minTime : ℚ
  maxTime : ℚ
  totalTime : ℚ
  count : Nat
deriving DecidableEq, Repr

/-- The exact value of Go's `math.MaxFloat64`,
`(2 - 2^-52) * 2^1023 = 2^1024 - 2^971`. -/
def maxFloat64 : ℚ := 2 ^ 1024 - 2 ^ 971

/-- The initial statistics record created in `main`:
`operationStats{minTime: math.MaxFloat64}` — all other fields are Go
zero values. -/
def initialStats : OperationStats :=
  { minTime := maxFloat64, maxTime := 0, totalTime := 0, count := 0 }

/-- `updateStats(stats, duration)`: increment the count, accumulate the
total, and conditionally lower `minTime` / raise `maxTime`. -/
def updateStats (stats : OperationStats) (duration : ℚ) : OperationStats :=
  { stats with
    count := stats.count + 1
    totalTime := stats.totalTime + duration
    minTime := if duration < stats.minTime then duration else stats.minTime
    maxTime := if duration > stats.maxTime then duration else stats.maxTime }

/-- `printStats`: the three numbers printed as `Min`, `Avg`, `Max`.
The average is special-cased to `0.0` when `count = 0`; `minTime` and
`maxTime` are printed as stored, with no special case. -/
def printStats (stats : OperationStats) : ℚ × ℚ × ℚ :=
  let avgTime : ℚ := if 0 < stats.count then stats.totalTime / (stats.count : ℚ) else 0
  (stats.minTime, avgTime, stats.maxTime)

/-- The character printed by `fmt.Sprintf("%d", ·)` for a single decimal
digit `d < 10`. -/
def digitChar (d : Nat) : Char := Char.ofNat (48 + d)

/-- The decimal rendering of a natural number, as produced by
`fmt.Sprintf("%d", i)`: the base-10 digits, most significant first,
with `0` rendered as `"0"`. -/
def natRepr (n : Nat) : String :=
  ⟨((if n = 0 then [0] else Nat.digits 10 n).reverse.map digitChar)⟩

/-- `generateKeys(numKeys, prefix)`: the ordered key space
`prefix + "0"`, `prefix + "1"`, …, one entry per index below
`numKeys`. -/
def generateKeys (numKeys : Nat) (pfx : String) : List String :=
  (List.range numKeys).map fun i => pfx ++ natRepr i

/-- Go's `rand.Intn(n)`: panics (modelled as `none`) when `n <= 0`,
otherwise returns a value in `[0, n)`; the `draw` argument stands for
the random source. -/
def randIntn (n draw : Nat) : Option Nat :=
  if n = 0 then none else some (draw % n)

/-- The worker's per-iteration key selection
`keys[rand.Intn(len(keys))]`: `none` models either the `rand.Intn`
panic on an empty key space or an out-of-range index panic. -/
def iterationKey (keys : List String) (draw : Nat) : Option String :=
  (randIntn keys.length draw).bind fun i => keys[i]?

/-- The outcome of one external execute call: success, the
`redis.Nil` "key not found" error, or any other error. -/
inductive Outcome where
  | ok
  | notFound
  | errOther
deriving DecidableEq, Repr

/-- The per-iteration inputs a worker consumes: the uniform draw for
the operation selector, the drawn key index, the measured latency of
the execute call (milliseconds), and the call's outcome.  The key
index never influences any counter. -/
structure Iter where
  draw : ℚ
  keyIdx : Nat
  latency : ℚ
  outcome : Outcome
deriving DecidableEq, Repr

/-- The counting state shared by both engine variants: the worker's
`progress` map entries and the shared `totalSet`/`totalGet`/`totalDel`
counters. -/
structure EngineState where
  progressSet : Nat
  progressGet : Nat
  progressDel : Nat
  totalSet : Nat
  totalGet : Nat
  totalDel : Nat
deriving DecidableEq, Repr

/-- The zero counting state at orchestration start. -/
def initEngineState : EngineState :=
  { progressSet := 0, progressGet := 0, progressDel := 0
    totalSet := 0, totalGet := 0, totalDel := 0 }

/-- The full state of the latency-tracking variant: the counting state
plus one `operationStats` per kind. -/
structure FullState where
  counts : EngineState
  setStats : OperationStats
  getStats : OperationStats
  delStats : OperationStats
deriving DecidableEq, Repr

/-- The initial state of the latency-tracking variant: zero counters
and `operationStats{minTime: math.MaxFloat64}` per kind. -/
def initFullState : FullState :=
  { counts := initEngineState
    setStats := initialStats, getStats := initialStats, delStats := initialStats }

/-- One loop iteration of `clientWorker` in `main.go` (the variant
without latency statistics): select the operation from the draw, then
on success (`err == nil`, or additionally `err == redis.Nil` for GET)
increment the worker's progress entry and the shared total for that
kind; on failure change nothing. -/
def clientWorkerStep (w r : ℚ) (it : Iter) (s : EngineState) : EngineState :=
  match selectOp (.fin it.draw) (.fin w) (.fin r), it.outcome with
  | .set, .ok => { s with progressSet := s.progressSet + 1, totalSet := s.totalSet + 1 }
  | .set, _ => s
  | .get, .ok => { s with progressGet := s.progressGet + 1, totalGet := s.totalGet + 1 }
  | .get, .notFound => { s with progressGet := s.progressGet + 1, totalGet := s.totalGet + 1 }
  | .get, .errOther => s
  | .del, .ok => { s with progressDel := s.progressDel + 1, totalDel := s.totalDel + 1 }
  | .del, _ => s

/-- One loop iteration of `clientWorker` in the latency-tracking
variant: identical selection and success conditions, and on success the
elapsed time is additionally recorded via `updateStats` for that
kind. -/
def clientWorkerStep2 (w r : ℚ) (it : Iter) (s : FullState) : FullState :=
  match selectOp (.fin it.draw) (.fin w) (.fin r), it.outcome with
  | .set, .ok =>
      { s with
        setStats := updateStats s.setStats it.latency
        counts := { s.counts with
          progressSet := s.counts.progressSet + 1, totalSet := s.counts.totalSet + 1 } }
  | .set, _ => s
  | .get, .ok =>
      { s with
        getStats := updateStats s.getStats it.latency
        counts := { s.counts with
          progressGet := s.counts.progressGet + 1, totalGet := s.counts.totalGet + 1 } }
  | .get, .notFound =>
      { s with
        getStats := updateStats s.getStats it.latency
        counts := { s.counts with
          progressGet := s.counts.progressGet + 1, totalGet := s.counts.totalGet + 1 } }
  | .get, .errOther => s
  | .del, .ok =>
      { s with
        delStats := updateStats s.delStats it.latency
        counts := { s.counts with
          progressDel := s.counts.progressDel + 1, totalDel := s.counts.totalDel + 1 } }
  | .del, _ => s

/-- A whole (interleaved) run of the latency-tracking variant on the
shared state: the lock-serialized iterations of all workers, applied in
order. -/
def runWorker2 (w r : ℚ) (its : List Iter) : FullState :=
  its.foldl (fun s it => clientWorkerStep2 w r it s) initFullState

/-- On finite values the inlined selector reduces to the two rational
comparisons of the source. -/
lemma selectOp_fin (draw w r : ℚ) :
    selectOp (.fin draw) (.fin w) (.fin r) =
      if draw < w then .set else if draw < w + r then .get else .del := by
  simp [selectOp, GoFloat.lt, GoFloat.add]

/-- The selector on finite values returns SET exactly when the draw is
strictly below the write ratio. -/
lemma selectOp_eq_set_iff (q w r : ℚ) :
    selectOp (.fin q) (.fin w) (.fin r) = .set ↔ q < w := by
  rw [selectOp_fin]
  constructor
  · intro h
    by_contra hA
    rw [if_neg hA] at h
    split_ifs at h
  · intro hA
    rw [if_pos hA]

/-- The selector on finite values returns GET exactly when the draw is
at least the write ratio and strictly below write + read. -/
lemma selectOp_eq_get_iff (q w r : ℚ) :
    selectOp (.fin q) (.fin w) (.fin r) = .get ↔ w ≤ q ∧ q < w + r := by
  rw [selectOp_fin]
  constructor
  · intro h
    split_ifs at h with hA hB
    exact ⟨le_of_not_lt hA, hB⟩
  · rintro ⟨hwd, hdr⟩
    rw [if_neg (not_lt.mpr hwd), if_pos hdr]

/-- The selector on finite values returns DEL exactly when the draw is
at least write + read. -/
lemma selectOp_eq_del_iff (q w r : ℚ) :
    selectOp (.fin q) (.fin w) (.fin r) = .del ↔ w + r ≤ q ∧ w ≤ q := by
  rw [selectOp_fin]
  constructor
  · intro h
    split_ifs at h with hA hB
    exact ⟨le_of_not_lt hB, le_of_not_lt hA⟩
  · rintro ⟨hwr, hw⟩
    have hA : ¬ q < w := not_lt.mpr hw
    have hB : ¬ q < w + r := not_lt.mpr hwr
    rw [if_neg hA, if_neg hB]

/-- C1: with normalized ratios summing to 1 and a draw in [0,1), the
selector chooses SET iff the draw is below `w`, GET iff it lies in
`[w, w+r)`, DEL otherwise; restricted to [0,1) the three preimages are
exactly the contiguous intervals `[0,w)`, `[w,w+r)`, `[w+r,1)`, whose
lengths are `w`, `r`, `d`. -/
theorem selector_partitions_unit_interval (w r d draw : ℚ)
    (hw : 0 ≤ w) (hr : 0 ≤ r) (hd : 0 ≤ d) (hsum : w + r + d = 1)
    (h0 : 0 ≤ draw) (h1 : draw < 1) :
    (selectOp (.fin draw) (.fin w) (.fin r) = .set ↔ draw < w) ∧
    (selectOp (.fin draw) (.fin w) (.fin r) = .get ↔ w ≤ draw ∧ draw < w + r) ∧
    (selectOp (.fin draw) (.fin w) (.fin r) = .del ↔ w + r ≤ draw) ∧
    {q : ℚ | q ∈ Set.Ico (0 : ℚ) 1 ∧ selectOp (.fin q) (.fin w) (.fin r) = .set}
      = Set.Ico 0 w ∧
    {q : ℚ | q ∈ Set.Ico (0 : ℚ) 1 ∧ selectOp (.fin q) (.fin w) (.fin r) = .get}
      = Set.Ico w (w + r) ∧
    {q : ℚ | q ∈ Set.Ico (0 : ℚ) 1 ∧ selectOp (.fin q) (.fin w) (.fin r) = .del}
      = Set.Ico (w + r) 1 ∧
    w - 0 = w ∧ (w + r) - w = r ∧ 1 - (w + r) = d := by
  have hwr1 : w + r ≤ 1 := by linarith
  refine ⟨?_, ?_, ?_, ?_, ?_, ?_, by ring, by ring, by linarith⟩
  · exact selectOp_eq_set_iff draw w r
  · exact selectOp_eq_get_iff draw w r
  · rw [selectOp_eq_del_iff]
    constructor
    · exact fun h => h.1
    · intro h
      exact ⟨h, by linarith⟩
  · ext q
    simp only [Set.mem_setOf_eq, Set.mem_Ico, selectOp_eq_set_iff]
    constructor
    · rintro ⟨⟨hq0, _⟩, hqw⟩
      exact ⟨hq0, hqw⟩
    · rintro ⟨hq0, hqw⟩
      exact ⟨⟨hq0, by linarith⟩, hqw⟩
  · ext q
    simp only [Set.mem_setOf_eq, Set.mem_Ico, selectOp_eq_get_iff]
    constructor
    · rintro ⟨⟨_, _⟩, hm⟩
      exact hm
    · rintro ⟨hwq, hqwr⟩
      exact ⟨⟨by linarith, by linarith⟩, hwq, hqwr⟩
  · ext q
    simp only [Set.mem_setOf_eq, Set.mem_Ico, selectOp_eq_del_iff]
    constructor
    · rintro ⟨⟨_, hq1⟩, hm, _⟩
      exact ⟨hm, hq1⟩
    · rintro ⟨hwrq, hq1⟩
      exact ⟨⟨by linarith, hq1⟩, hwrq, by linarith⟩

/-- Witness for C1 at `w = 1/2`, `r = 1/4`, `d = 1/4`, `draw = 1/2`
(a boundary draw, which resolves to GET). -/
theorem selector_partitions_unit_interval_witness :
    (0 : ℚ) ≤ 1/2 ∧ (0 : ℚ) ≤ 1/4 ∧ (0 : ℚ) ≤ 1/4 ∧
      (1/2 : ℚ) + 1/4 + 1/4 = 1 ∧ (0 : ℚ) ≤ 1/2 ∧ (1/2 : ℚ) < 1 ∧
    (selectOp (.fin (1/2)) (.fin (1/2)) (.fin (1/4)) = .get ↔
      (1/2 : ℚ) ≤ 1/2 ∧ (1/2 : ℚ) < 1/2 + 1/4) :=
  ⟨by norm_num, by norm_num, by norm_num, by norm_num, by norm_num, by norm_num,
   (selector_partitions_unit_interval (1/2) (1/4) (1/4) (1/2)
      (by norm_num) (by norm_num) (by norm_num) (by norm_num)
      (by norm_num) (by norm_num)).2.1⟩

/-- C4 (code behaviour at the failing input): with all three raw ratios
zero, `main` performs no rejection — normalization divides by the zero
sum, producing NaN for every ratio, and with NaN ratios every draw
falls through both `<` comparisons, so every iteration selects DEL.
The run proceeds; it is never refused. -/
theorem zero_ratio_sum_normalizes_to_nan_and_runs :
    normalizeRatios 0 0 0 = (GoFloat.nan, GoFloat.nan, GoFloat.nan) ∧
    ∀ q : ℚ, selectOp (.fin q) GoFloat.nan GoFloat.nan = Op.del := by
  constructor
  · simp [normalizeRatios, divGo]
  · intro q
    simp [selectOp, GoFloat.lt, GoFloat.add]

/-- One `updateStats` call, written with `min`/`max`. -/
lemma updateStats_min_max (s : OperationStats) (d : ℚ) :
    updateStats s d =
      { minTime := min s.minTime d, maxTime := max s.maxTime d,
        totalTime := s.totalTime + d, count := s.count + 1 } := by
  cases s with
  | mk mn mx tot cnt =>
    simp only [updateStats, OperationStats.mk.injEq]
    refine ⟨?_, ?_, trivial, trivial⟩
    · split_ifs with h
      · rw [min_eq_right h.le]
      · rw [min_eq_left (not_lt.mp h)]
    · split_ifs with h
      · rw [max_eq_right (le_of_lt h)]
      · rw [max_eq_left (not_lt.mp h)]

/-- Folding `updateStats` over a batch of latencies accumulates the
four fields independently: running minimum, running maximum, running
sum, running count. -/
lemma foldl_updateStats (l : List ℚ) (s : OperationStats) :
    l.foldl updateStats s =
      { minTime := l.foldl min s.minTime, maxTime := l.foldl max s.maxTime,
        totalTime := s.totalTime + l.sum, count := s.count + l.length } := by
  induction l generalizing s with
  | nil => simp
  | cons x xs ih =>
    rw [List.foldl_cons, ih, updateStats_min_max]
    simp only [OperationStats.mk.injEq, List.foldl_cons, List.sum_cons, List.length_cons]
    refine ⟨trivial, trivial, by ring, by omega⟩

/-- A left fold of `min` is a lower bound for the seed and all list
elements. -/
lemma foldl_min_le (l : List ℚ) (a : ℚ) :
    l.foldl min a ≤ a ∧ ∀ x ∈ l, l.foldl min a ≤ x := by
  induction l generalizing a with
  | nil => simp
  | cons y ys ih =>
    obtain ⟨h1, h2⟩ := ih (min a y)
    refine ⟨le_trans h1 (min_le_left _ _), ?_⟩
    intro x hx
    rcases List.mem_cons.mp hx with rfl | hx
    · exact le_trans h1 (min_le_right _ _)
    · exact h2 x hx

/-- A left fold of `min` is either the seed or one of the list
elements. -/
lemma foldl_min_mem (l : List ℚ) (a : ℚ) :
    l.foldl min a = a ∨ l.foldl min a ∈ l := by
  induction l generalizing a with
  | nil => simp
  | cons y ys ih =>
    rw [List.foldl_cons]
    rcases ih (min a y) with h | h
    · rcases min_choice a y with hm | hm
      · left
        rw [h, hm]
      · right
        rw [h, hm]
        exact List.mem_cons_self _ _
    · right
      exact List.mem_cons_of_mem _ h

/-- A left fold of `max` is an upper bound for the seed and all list
elements. -/
lemma foldl_max_ge (l : List ℚ) (a : ℚ) :
    a ≤ l.foldl max a ∧ ∀ x ∈ l, x ≤ l.foldl max a := by
  induction l generalizing a with
  | nil => simp
  | cons y ys ih =>
    obtain ⟨h1, h2⟩ := ih (max a y)
    refine ⟨le_trans (le_max_left _ _) h1, ?_⟩
    intro x hx
    rcases List.mem_cons.mp hx with rfl | hx
    · exact le_trans (le_max_right _ _) h1
    · exact h2 x hx

/-- A left fold of `max` is either the seed or one of the list
elements. -/
lemma foldl_max_mem (l : List ℚ) (a : ℚ) :
    l.foldl max a = a ∨ l.foldl max a ∈ l := by
  induction l generalizing a with
  | nil => simp
  | cons y ys ih =>
    rw [List.foldl_cons]
    rcases ih (max a y) with h | h
    · rcases max_choice a y with hm | hm
      · left
        rw [h, hm]
      · right
        rw [h, hm]
        exact List.mem_cons_self _ _
    · right
      exact List.mem_cons_of_mem _ h

/-- C2: after any nonempty batch of `Record` calls (latencies
nonnegative and below the `math.MaxFloat64` sentinel) applied to the
freshly initialized per-kind statistics, `count` is the number of
calls, `totalTime` is their sum, and `minTime`/`maxTime` are the true
minimum/maximum of the recorded latencies (each is a recorded latency
and bounds all of them). -/
theorem updateStats_foldl_aggregates (l : List ℚ) (hne : l ≠ [])
    (hnn : ∀ x ∈ l, 0 ≤ x) (hlt : ∀ x ∈ l, x < maxFloat64) :
    (l.foldl updateStats initialStats).count = l.length ∧
    (l.foldl updateStats initialStats).totalTime = l.sum ∧
    ((l.foldl updateStats initialStats).minTime ∈ l ∧
      ∀ x ∈ l, (l.foldl updateStats initialStats).minTime ≤ x) ∧
    ((l.foldl updateStats initialStats).maxTime ∈ l ∧
      ∀ x ∈ l, x ≤ (l.foldl updateStats initialStats).maxTime) := by
  obtain ⟨y, hy⟩ := List.exists_mem_of_ne_nil l hne
  rw [foldl_updateStats]
  simp only [initialStats]
  refine ⟨by omega, by ring, ⟨?_, (foldl_min_le l maxFloat64).2⟩,
    ⟨?_, (foldl_max_ge l 0).2⟩⟩
  · rcases foldl_min_mem l maxFloat64 with h | h
    · exfalso
      have hle : l.foldl min maxFloat64 ≤ y := (foldl_min_le l maxFloat64).2 y hy
      rw [h] at hle
      exact absurd hle (not_le.mpr (hlt y hy))
    · exact h
  · rcases foldl_max_mem l 0 with h | h
    · have hyle : y ≤ l.foldl max 0 := (foldl_max_ge l 0).2 y hy
      have hy0 : y = 0 := le_antisymm (h ▸ hyle) (hnn y hy)
      rw [h, ← hy0]
      exact hy
    · exact h

/-- Witness for C2 on the latency batch `[2, 1, 3]`. -/
theorem updateStats_foldl_aggregates_witness :
    (([2, 1, 3] : List ℚ) ≠ [] ∧ (∀ x ∈ ([2, 1, 3] : List ℚ), 0 ≤ x) ∧
        ∀ x ∈ ([2, 1, 3] : List ℚ), x < maxFloat64) ∧
    (([2, 1, 3] : List ℚ).foldl updateStats initialStats).count =
      ([2, 1, 3] : List ℚ).length := by
  refine ⟨⟨by simp, by norm_num, by norm_num [maxFloat64]⟩, ?_⟩
  exact (updateStats_foldl_aggregates [2, 1, 3] (by simp) (by norm_num)
    (by norm_num [maxFloat64])).1

/-- C3 (code behaviour at the failing input): for a kind with zero
recorded samples the report's average is the defined zero value, but
the printed minimum is the raw `math.MaxFloat64` sentinel
(`2^1024 - 2^971`, a positive number), not `0.00`: `printStats` has no
zero-sample special case for `minTime`/`maxTime`. -/
theorem printStats_zero_samples_leaks_min_sentinel :
    initialStats.count = 0 ∧
    printStats initialStats = (maxFloat64, 0, 0) ∧
    maxFloat64 = 2 ^ 1024 - 2 ^ 971 ∧ 0 < maxFloat64 := by
  refine ⟨rfl, rfl, rfl, by norm_num [maxFloat64]⟩

/-- C6: when the execute call fails — any error, except `redis.Nil` on
a GET — the iteration leaves the whole shared state unchanged in both
engine variants: no progress entry, no run total, and no latency
statistic is touched, and the worker simply proceeds. -/
theorem failed_execute_leaves_state_unchanged (w r : ℚ) (it : Iter)
    (s : EngineState) (fs : FullState)
    (h : it.outcome = .errOther ∨
      (it.outcome = .notFound ∧ selectOp (.fin it.draw) (.fin w) (.fin r) ≠ .get)) :
    clientWorkerStep w r it s = s ∧ clientWorkerStep2 w r it fs = fs := by
  rcases h with h | ⟨h, hop⟩
  · cases hsel : selectOp (.fin it.draw) (.fin w) (.fin r) <;>
      simp [clientWorkerStep, clientWorkerStep2, hsel, h]
  · cases hsel : selectOp (.fin it.draw) (.fin w) (.fin r)
    · simp [clientWorkerStep, clientWorkerStep2, hsel, h]
    · exact absurd hsel hop
    · simp [clientWorkerStep, clientWorkerStep2, hsel, h]

/-- Witness for C6: a failing SET iteration changes nothing. -/
theorem failed_execute_leaves_state_unchanged_witness :
    ({ draw := 0, keyIdx := 0, latency := 5, outcome := .errOther } : Iter).outcome = .errOther ∧
    clientWorkerStep (1/2) (1/4) { draw := 0, keyIdx := 0, latency := 5, outcome := .errOther }
      initEngineState = initEngineState :=
  ⟨rfl,
   (failed_execute_leaves_state_unchanged (1/2) (1/4)
      { draw := 0, keyIdx := 0, latency := 5, outcome := .errOther }
      initEngineState initFullState (Or.inl rfl)).1⟩

/-- C8: a GET whose outcome is `redis.Nil` ("key not found") is
handled exactly like a success: the worker's read progress entry and
the shared read total are incremented, and the latency-tracking
variant additionally records the latency sample for the read kind. -/
theorem get_nil_treated_as_success (w r : ℚ) (it : Iter)
    (s : EngineState) (fs : FullState)
    (hop : selectOp (.fin it.draw) (.fin w) (.fin r) = .get)
    (hout : it.outcome = .notFound) :
    clientWorkerStep w r it s =
      { s with progressGet := s.progressGet + 1, totalGet := s.totalGet + 1 } ∧
    clientWorkerStep2 w r it fs =
      { fs with
        getStats := updateStats fs.getStats it.latency
        counts := { fs.counts with
          progressGet := fs.counts.progressGet + 1
          totalGet := fs.counts.totalGet + 1 } } ∧
    (clientWorkerStep2 w r it fs).getStats.count = fs.getStats.count + 1 := by
  refine ⟨?_, ?_, ?_⟩ <;>
    simp [clientWorkerStep, clientWorkerStep2, hop, hout, updateStats]

/-- Witness for C8: a not-found GET at draw 1/2 with ratios
`w = 0`, `r = 1` increments the read counters. -/
theorem get_nil_treated_as_success_witness :
    selectOp (.fin (1/2)) (.fin 0) (.fin 1) = .get ∧
    ({ draw := 1/2, keyIdx := 0, latency := 7, outcome := .notFound } : Iter).outcome = .notFound ∧
    clientWorkerStep 0 1 { draw := 1/2, keyIdx := 0, latency := 7, outcome := .notFound }
        initEngineState =
      { initEngineState with
        progressGet := initEngineState.progressGet + 1
        totalGet := initEngineState.totalGet + 1 } := by
  have hop : selectOp (.fin (1/2)) (.fin 0) (.fin 1) = .get :=
    (selectOp_eq_get_iff (1/2) 0 1).mpr (by norm_num)
  exact ⟨hop, rfl,
    (get_nil_treated_as_success 0 1 { draw := 1/2, keyIdx := 0, latency := 7, outcome := .notFound }
      initEngineState initFullState hop rfl).1⟩

/-- C7: after any serialized sequence of iterations of the
latency-tracking variant starting from the initial shared state, each
shared run total equals the corresponding aggregator count: every
successful operation increments both exactly once, so the two sources
of truth never disagree at shutdown. -/
theorem run_totals_agree_with_stats_counts (w r : ℚ) (its : List Iter) :
    (runWorker2 w r its).counts.totalSet = (runWorker2 w r its).setStats.count ∧
    (runWorker2 w r its).counts.totalGet = (runWorker2 w r its).getStats.count ∧
    (runWorker2 w r its).counts.totalDel = (runWorker2 w r its).delStats.count := by
  have hstep : ∀ (it : Iter) (fs : FullState),
      (fs.counts.totalSet = fs.setStats.count ∧
        fs.counts.totalGet = fs.getStats.count ∧
        fs.counts.totalDel = fs.delStats.count) →
      ((clientWorkerStep2 w r it fs).counts.totalSet =
          (clientWorkerStep2 w r it fs).setStats.count ∧
        (clientWorkerStep2 w r it fs).counts.totalGet =
          (clientWorkerStep2 w r it fs).getStats.count ∧
        (clientWorkerStep2 w r it fs).counts.totalDel =
          (clientWorkerStep2 w r it fs).delStats.count) := by
    intro it fs hinv
    obtain ⟨h1, h2, h3⟩ := hinv
    cases hsel : selectOp (.fin it.draw) (.fin w) (.fin r) <;>
      cases hout : it.outcome <;>
        simp [clientWorkerStep2, hsel, hout, updateStats] <;> omega
  unfold runWorker2
  suffices h : ∀ fs : FullState,
      (fs.counts.totalSet = fs.setStats.count ∧
        fs.counts.totalGet = fs.getStats.count ∧
        fs.counts.totalDel = fs.delStats.count) →
      ((its.foldl (fun s it => clientWorkerStep2 w r it s) fs).counts.totalSet =
          (its.foldl (fun s it => clientWorkerStep2 w r it s) fs).setStats.count ∧
        (its.foldl (fun s it => clientWorkerStep2 w r it s) fs).counts.totalGet =
          (its.foldl (fun s it => clientWorkerStep2 w r it s) fs).getStats.count ∧
        (its.foldl (fun s it => clientWorkerStep2 w r it s) fs).counts.totalDel =
          (its.foldl (fun s it => clientWorkerStep2 w r it s) fs).delStats.count) by
    exact h initFullState ⟨rfl, rfl, rfl⟩
  induction its with
  | nil => exact fun fs hfs => hfs
  | cons it rest ih =>
    intro fs hfs
    exact ih (clientWorkerStep2 w r it fs) (hstep it fs hfs)

/-- C10: the two engine variants are counting-equivalent — on the same
draw and outcome a single iteration of the latency-tracking variant
applies exactly the increments of the `main.go` variant to the
progress entries and run totals, and hence so does any sequence of
iterations; the variants differ only in the extra latency statistics. -/
theorem variants_counting_equivalent (w r : ℚ) (it : Iter) (fs : FullState)
    (its : List Iter) :
    (clientWorkerStep2 w r it fs).counts = clientWorkerStep w r it fs.counts ∧
    (its.foldl (fun s i => clientWorkerStep2 w r i s) fs).counts =
      its.foldl (fun s i => clientWorkerStep w r i s) fs.counts := by
  have hstep : ∀ (j : Iter) (t : FullState),
      (clientWorkerStep2 w r j t).counts = clientWorkerStep w r j t.counts := by
    intro j t
    cases hsel : selectOp (.fin j.draw) (.fin w) (.fin r) <;>
      cases hout : j.outcome <;>
        simp [clientWorkerStep, clientWorkerStep2, hsel, hout]
  refine ⟨hstep it fs, ?_⟩
  induction its generalizing fs with
  | nil => rfl
  | cons j rest ih =>
    simp only [List.foldl_cons]
    rw [ih (clientWorkerStep2 w r j fs), hstep j fs]

/-- Distinct decimal digits render as distinct characters. -/
lemma digitChar_inj_lt : ∀ d < 10, ∀ e < 10, digitChar d = digitChar e → d = e := by
  decide

/-- Every entry of the digit list used by `natRepr` is a decimal
digit. -/
lemma natRepr_digits_lt (n : Nat) :
    ∀ x ∈ (if n = 0 then [0] else Nat.digits 10 n), x < 10 := by
  intro x hx
  by_cases h : n = 0
  · rw [if_pos h] at hx
    simp at hx
    omega
  · rw [if_neg h] at hx
    exact Nat.digits_lt_base (by norm_num) hx

/-- The digit list used by `natRepr` determines the number. -/
lemma natRepr_digits_ofDigits (n : Nat) :
    Nat.ofDigits 10 (if n = 0 then [0] else Nat.digits 10 n) = n := by
  by_cases h : n = 0
  · rw [if_pos h, h]
    simp
  · rw [if_neg h]
    exact Nat.ofDigits_digits 10 n

/-- Mapping `digitChar` over lists of decimal digits is injective. -/
lemma map_digitChar_inj : ∀ l1 l2 : List Nat, (∀ x ∈ l1, x < 10) → (∀ x ∈ l2, x < 10) →
    l1.map digitChar = l2.map digitChar → l1 = l2 := by
  intro l1
  induction l1 with
  | nil =>
    intro l2 _ _ h
    cases l2 with
    | nil => rfl
    | cons b m => simp at h
  | cons a l ih =>
    intro l2 h1 h2 h
    cases l2 with
    | nil => simp at h
    | cons b m =>
      simp only [List.map_cons, List.cons.injEq] at h
      have ha : a = b :=
        digitChar_inj_lt a (h1 a (List.mem_cons_self a l)) b (h2 b (List.mem_cons_self b m)) h.1
      have hm : l = m :=
        ih m (fun x hx => h1 x (List.mem_cons_of_mem _ hx))
          (fun x hx => h2 x (List.mem_cons_of_mem _ hx)) h.2
      rw [ha, hm]

/-- The decimal rendering of natural numbers is injective. -/
lemma natRepr_injective : Function.Injective natRepr := by
  intro m n h
  unfold natRepr at h
  injection h with h
  have hrev :
      (if m = 0 then [0] else Nat.digits 10 m).reverse =
        (if n = 0 then [0] else Nat.digits 10 n).reverse :=
    map_digitChar_inj _ _
      (fun x hx => natRepr_digits_lt m x (List.mem_reverse.mp hx))
      (fun x hx => natRepr_digits_lt n x (List.mem_reverse.mp hx)) h
  have hlists := List.reverse_injective hrev
  have := natRepr_digits_ofDigits m
  rw [hlists, natRepr_digits_ofDigits n] at this
  exact this.symm

/-- Appending to a fixed string on the left is injective. -/
lemma string_append_left_cancel (a b c : String) (h : a ++ b = a ++ c) : b = c := by
  cases a
  cases b
  cases c
  simp only [HAppend.hAppend, Append.append, String.append] at h
  injection h with h
  exact congrArg String.mk (List.append_cancel_left h)

/-- The key construction `pfx ++ natRepr ·` is injective. -/
lemma keyOfIndex_injective (pfx : String) :
    Function.Injective (fun i => pfx ++ natRepr i) := by
  intro i j h
  exact natRepr_injective (string_append_left_cancel pfx _ _ h)

/-- C5: `generateKeys` is deterministic and, for every count and
prefix, returns exactly `count` pairwise-distinct keys whose `i`-th
element is the prefix followed by the decimal rendering of `i`; a zero
count yields the empty sequence, and `generateKeys 5 "k_"` is exactly
`["k_0", "k_1", "k_2", "k_3", "k_4"]`. -/
theorem generateKeys_spec (n : Nat) (pfx : String) :
    (generateKeys n pfx).length = n ∧
    (∀ i, i < n → (generateKeys n pfx)[i]? = some (pfx ++ natRepr i)) ∧
    (generateKeys n pfx).Nodup ∧
    generateKeys 0 pfx = [] ∧
    generateKeys 5 "k_" = ["k_0", "k_1", "k_2", "k_3", "k_4"] := by
  refine ⟨by simp [generateKeys], ?_, ?_, by simp [generateKeys], ?_⟩
  · intro i hi
    simp [generateKeys, List.getElem?_range hi]
  · exact (List.nodup_range n).map (keyOfIndex_injective pfx)
  · have h1 : Nat.digits 10 1 = [1] := by norm_num
    have h2 : Nat.digits 10 2 = [2] := by norm_num
    have h3 : Nat.digits 10 3 = [3] := by norm_num
    have h4 : Nat.digits 10 4 = [4] := by norm_num
    simp [generateKeys, natRepr, List.range_succ, h1, h2, h3, h4]
    refine ⟨by decide, by decide, by decide, by decide, by decide⟩

/-- Witness for C5: the fourth generated key at count 5 is `"k_3"`. -/
theorem generateKeys_spec_witness :
    3 < 5 ∧ (generateKeys 5 "k_")[3]? = some ("k_" ++ natRepr 3) :=
  ⟨by decide, (generateKeys_spec 5 "k_").2.1 3 (by decide)⟩

/-- C9: with at least one key, every iteration's key selection
`keys[rand.Intn(len(keys))]` is in bounds and yields an element of the
generated key space; with an empty key space the selection never
reaches the lookup — `rand.Intn(0)` aborts the worker (modelled as
`none`), so no key is ever fabricated. -/
theorem key_lookup_in_bounds (kc : Nat) (pfx : String) (draw : Nat)
    (h : 1 ≤ kc) :
    (∃ k, iterationKey (generateKeys kc pfx) draw = some k ∧
      k ∈ generateKeys kc pfx) ∧
    ∀ q, iterationKey (generateKeys 0 pfx) q = none := by
  constructor
  · have hlen : (generateKeys kc pfx).length = kc := by simp [generateKeys]
    have hidx : draw % kc < (generateKeys kc pfx).length := by
      rw [hlen]
      exact Nat.mod_lt _ (by omega)
    refine ⟨(generateKeys kc pfx).get ⟨draw % kc, hidx⟩, ?_, List.get_mem _ _ _⟩
    have hkc : kc ≠ 0 := by omega
    simp only [iterationKey, randIntn, hlen, hkc, if_false, Option.bind_some]
    simp [List.getElem?_eq_getElem hidx]
  · intro q
    simp [iterationKey, randIntn, generateKeys]

/-- Witness for C9 with three keys and draw 7. -/
theorem key_lookup_in_bounds_witness :
    1 ≤ 3 ∧ ∃ k, iterationKey (generateKeys 3 "k_") 7 = some k ∧
      k ∈ generateKeys 3 "k_" :=
  ⟨by decide, (key_lookup_in_bounds 3 "k_" 7 (by decide)).1⟩
